import Mathlib

/-!
Shallow embedding of the velora real-time audio pipeline and transcript
reconciliation engine.

The definitions below translate, function by function, the relevant parts of
the repository:

* the transcript reconciler and correction attachment (the `onTranscript` and
  `onCorrection` callbacks of the App component),
* the playback scheduler (the `onAudioData` callback),
* the capture framing and linear-interpolation downsampler
  (`PCMProcessor.process` / `PCMProcessor.downsample` in `pcm-processor.js`),
* the block-averaging resampler `downsampleTo16k` and the PCM encoder
  `float32ToInt16PCM` (`utils/audioUtils.ts`),
* a connection supervisor modelled from the spec (its reconnect logic is not
  among the repository's source files; only the caller's `onReconnecting`
  hook appears).

JavaScript numbers are embedded as `ℚ`, strings as Lean `String`
(lists of unicode characters), and the mutable refs of the component as an
explicit state record threaded through each handler.
-/

namespace Velora

/-- The whitespace set of JavaScript `String.prototype.trim`
(WhiteSpace ∪ LineTerminator code points). -/
def isJsWhitespace (c : Char) : Bool :=
  ([0x9, 0xA, 0xB, 0xC, 0xD, 0x20, 0xA0, 0x1680, 0x2000, 0x2001, 0x2002,
    0x2003, 0x2004, 0x2005, 0x2006, 0x2007, 0x2008, 0x2009, 0x200A, 0x2028,
    0x2029, 0x202F, 0x205F, 0x3000, 0xFEFF] : List Nat).contains c.toNat

/-- JavaScript `s.trim()`: strip leading and trailing whitespace. -/
def jsTrim (s : String) : String :=
  ⟨((s.data.dropWhile isJsWhitespace).reverse.dropWhile isJsWhitespace).reverse⟩

/-- The control-character class `CONTROL_CHAR_REGEX = /[\x00-\x1F\x7F-\x9F]/g`. -/
def isControlChar (c : Char) : Bool :=
  c.toNat ≤ 0x1F || (0x7F ≤ c.toNat && c.toNat ≤ 0x9F)

/-- Split a character list into its leading digit run and the rest. -/
def splitDigits (l : List Char) : List Char × List Char :=
  (l.takeWhile Char.isDigit, l.dropWhile Char.isDigit)

/-- Match `CTRL_CHAR_REGEX = /<ctrl\d+>/` at the head of the list; on a match
return the characters after the tag. -/
def matchCtrlTag : List Char → Option (List Char)
  | '<' :: 'c' :: 't' :: 'r' :: 'l' :: rest =>
    match splitDigits rest with
    | (ds, '>' :: r) => if ds.isEmpty then none else some r
    | _ => none
  | _ => none

/-- Left-to-right non-overlapping removal of `<ctrl\d+>` tags
(`text.replace(CTRL_CHAR_REGEX, '')`).  Fuel-indexed so that it computes by
kernel reduction; fuel `= l.length` always suffices because every step
consumes at least one character. -/
def stripCtrlTagsAux : Nat → List Char → List Char
  | 0, l => l
  | _ + 1, [] => []
  | fuel + 1, c :: rest =>
    match matchCtrlTag (c :: rest) with
    | some r => stripCtrlTagsAux fuel r
    | none => c :: stripCtrlTagsAux fuel rest

/-- The composite `text.replace(CTRL_CHAR_REGEX, '').replace(CONTROL_CHAR_REGEX, '')`:
the sanitization applied to every incoming transcript fragment. -/
def sanitize (s : String) : String :=
  ⟨(stripCtrlTagsAux s.data.length s.data).filter (fun c => !isControlChar c)⟩

/-- The two transcript roles. -/
inductive Role
  | user
  | ai
deriving DecidableEq, BEq

/-- An entry of `transcriptHistoryRef`: `{role, text}`. -/
structure HistEntry where
  role : Role
  text : String
deriving DecidableEq, BEq

/-- An entry of `recentTurnsRef` (`SubtitleTurn`): id `-1` marks the live
streaming turn. -/
structure SubtitleTurn where
  role : Role
  text : String
  id : Int
deriving DecidableEq, BEq

/-- A correction event (`Correction`).  `turnIndex = -1` stands for the
"no user turn found" sentinel, and is the value before attachment. -/
structure Correction where
  original : String
  corrected : String
  explanation : String
  timestamp : Int
  aiContext : String
  turnIndex : Int
deriving DecidableEq, BEq

/-- The reconciler's mutable refs, as one state record.  The latency
instrumentation refs (`turnStartTimeRef`, read only by `console.log`) are
omitted. -/
structure ReconState where
  history : List HistEntry
  userBuf : String
  aiBuf : String
  lastRole : Option Role
  recentTurns : List SubtitleTurn
  turnIdCounter : Int
  transcriptTurnCount : Int
  corrections : List Correction
  isPracticeMode : Bool
deriving DecidableEq

/-- The state right after `startSession` resets every ref. -/
def initState : ReconState :=
  { history := []
    userBuf := ""
    aiBuf := ""
    lastRole := none
    recentTurns := []
    turnIdCounter := 0
    transcriptTurnCount := -1
    corrections := []
    isPracticeMode := false }

/-- JavaScript `l.slice(-n)`: the last `n` elements. -/
def sliceLast (n : Nat) (l : List α) : List α :=
  l.drop (l.length - n)

/-- The role-switch finalization block of `onTranscript`: if the previous
role's accumulated buffer is non-empty after trim, push it to permanent
history, replace the streaming display entry by a committed one (keeping the
last 4), and clear the buffer. -/
def finalizePrev (s : ReconState) (prev : Role) : ReconState :=
  match prev with
  | Role.user =>
    if jsTrim s.userBuf != "" then
      let history := s.history ++ [⟨Role.user, s.userBuf⟩]
      let completedTurns := s.recentTurns.filter (fun t => t.id != -1)
      let newTurns := sliceLast 4 (completedTurns ++ [⟨Role.user, s.userBuf, s.turnIdCounter⟩])
      { s with
          history := history
          transcriptTurnCount := (history.length : Int) - 1
          recentTurns := newTurns
          turnIdCounter := s.turnIdCounter + 1
          userBuf := "" }
    else s
  | Role.ai =>
    if jsTrim s.aiBuf != "" then
      let history := s.history ++ [⟨Role.ai, s.aiBuf⟩]
      let completedTurns := s.recentTurns.filter (fun t => t.id != -1)
      let newTurns := sliceLast 4 (completedTurns ++ [⟨Role.ai, s.aiBuf, s.turnIdCounter⟩])
      { s with
          history := history
          transcriptTurnCount := (history.length : Int) - 1
          recentTurns := newTurns
          turnIdCounter := s.turnIdCounter + 1
          aiBuf := "" }
    else s

/-- The `onTranscript(text, isUser, isFinal)` callback.  `isFinal` is received
but never read by the handler's body. -/
def onTranscript (s : ReconState) (text : String) (isUser : Bool) (isFinal : Bool) : ReconState :=
  let _ := isFinal
  let currentRole := if isUser then Role.user else Role.ai
  if s.isPracticeMode && !isUser then s
  else
    let s1 :=
      match s.lastRole with
      | some prev => if prev ≠ currentRole then finalizePrev s prev else s
      | none => s
    let s2 := { s1 with lastRole := some currentRole }
    if text != "" && jsTrim text != "" then
      let sanitizedText := sanitize text
      if sanitizedText != "" then
        let s3 :=
          if isUser then { s2 with userBuf := s2.userBuf ++ sanitizedText }
          else { s2 with aiBuf := s2.aiBuf ++ sanitizedText }
        let textToDisplay := if isUser then s3.userBuf else s3.aiBuf
        let completedTurns := s3.recentTurns.filter (fun t => t.id != -1)
        let merged :=
          match completedTurns.getLast? with
          | some lastTurn =>
            if lastTurn.role == currentRole then
              match (jsTrim textToDisplay).data with
              | bufferStart :: _ =>
                if bufferStart.toLower == bufferStart && bufferStart.toUpper != bufferStart then
                  (lastTurn.text ++ " " ++ textToDisplay, completedTurns.dropLast)
                else (textToDisplay, completedTurns)
              | [] => (textToDisplay, completedTurns)
            else (textToDisplay, completedTurns)
          | none => (textToDisplay, completedTurns)
        { s3 with recentTurns := sliceLast 4 (merged.2 ++ [⟨currentRole, merged.1, -1⟩]) }
      else s2
    else s2

/-- A sentence terminator of the context regex `/[^.!?]+[.!?]+/g`. -/
def isSentencePunct (c : Char) : Bool :=
  c == '.' || c == '!' || c == '?'

/-- Global matching of `/[^.!?]+[.!?]+/g`: each match is a maximal run of
non-terminators followed by a maximal run of terminators.  Fuel-indexed for
kernel computability; fuel `= l.length` suffices. -/
def sentenceSplitAux : Nat → List Char → List (List Char)
  | 0, _ => []
  | _ + 1, [] => []
  | fuel + 1, l =>
    let body := l.takeWhile (fun c => !isSentencePunct c)
    if body.isEmpty then sentenceSplitAux fuel l.tail
    else
      let rest := l.drop body.length
      let terms := rest.takeWhile isSentencePunct
      if terms.isEmpty then []
      else (body ++ terms) :: sentenceSplitAux fuel (rest.drop terms.length)

/-- The match list `text.match(/[^.!?]+[.!?]+/g)` (empty when the
regex finds none, where JavaScript returns `null`). -/
def sentenceMatches (s : String) : List String :=
  (sentenceSplitAux s.data.length s.data).map (fun l => ⟨l⟩)

/-- The backward scan for the most recent `role == 'user'` entry of the
history; `-1` when none exists. -/
def lastUserTurnIndex (history : List HistEntry) : Int :=
  history.enum.foldl
    (fun acc p => if p.2.role == Role.user then (p.1 : Int) else acc) (-1)

/-- The `alreadyFinalized` test of `onCorrection`: the last history entry has
role `ai` and text exactly equal to the current AI buffer. -/
def alreadyFinalizedAI (s : ReconState) : Bool :=
  match s.history.getLast? with
  | some lastEntry => lastEntry.role == Role.ai && lastEntry.text == s.aiBuf
  | none => false

/-- The `onCorrection(correction)` callback: on a non-empty AI buffer, derive
`aiContext` from the last two sentences, finalize the AI turn unless already
finalized, attach `turnIndex` by the backward user scan, reset the AI
tracking, and append the correction to the bounded list (last 10). -/
def onCorrection (s : ReconState) (c : Correction) : ReconState :=
  if jsTrim s.aiBuf != "" then
    let text := jsTrim s.aiBuf
    let sentences :=
      match sentenceMatches text with
      | [] => [text]
      | l => l
    let recentContext := jsTrim (String.intercalate " " (sliceLast 2 sentences))
    let c1 := { c with aiContext := if recentContext != "" then recentContext else text }
    let history :=
      if alreadyFinalizedAI s then s.history else s.history ++ [⟨Role.ai, s.aiBuf⟩]
    let c2 := { c1 with turnIndex := lastUserTurnIndex history }
    let recentTurns :=
      if alreadyFinalizedAI s then s.recentTurns
      else
        sliceLast 4
          ((s.recentTurns.filter (fun t => t.id != -1)) ++ [⟨Role.ai, s.aiBuf, s.turnIdCounter⟩])
    let turnIdCounter :=
      if alreadyFinalizedAI s then s.turnIdCounter else s.turnIdCounter + 1
    { s with
        history := history
        transcriptTurnCount := (history.length : Int) - 1
        recentTurns := recentTurns
        turnIdCounter := turnIdCounter
        aiBuf := ""
        lastRole := none
        corrections := sliceLast 10 (s.corrections ++ [c2]) }
  else { s with corrections := sliceLast 10 (s.corrections ++ [c]) }

/-! ### Playback scheduler (the `onAudioData` callback) -/

/-- One playback enqueue: the output-clock reading `now`
(`audioContext.currentTime`) at arrival and the decoded buffer's duration. -/
structure EnqueueEvent where
  now : ℚ
  duration : ℚ
deriving DecidableEq

/-- The scheduling core of `onAudioData`:
`start = max(nextStartTime, now); nextStartTime = start + buffer.duration`.
Returns `(start, new nextStartTime)`. -/
def onAudioDataStep (nextStartTime : ℚ) (e : EnqueueEvent) : ℚ × ℚ :=
  let start := max nextStartTime e.now
  (start, start + e.duration)

/-- The start times assigned to a sequence of enqueued buffers, threading
`nextStartTimeRef` through the `onAudioData` callback. -/
def scheduleAll (nextStartTime : ℚ) : List EnqueueEvent → List ℚ
  | [] => []
  | e :: es =>
    let se := onAudioDataStep nextStartTime e
    se.1 :: scheduleAll se.2 es

/-! ### Capture framing and interpolation resampler (`pcm-processor.js`) -/

namespace PCMProcessor

/-- The capture packet size, `this.bufferSize = 2048`. -/
def bufferSize : Nat := 2048

/-- The fill loop of `PCMProcessor.process`: append each sample at the write
index and emit (post) the full buffer exactly when the index reaches
`bufferSize`, resetting the index to 0.  State is the pending partial buffer;
the result is the list of emitted packets and the final pending buffer. -/
def processFill : List ℚ → List ℚ → List (List ℚ) × List ℚ
  | pending, [] => ([], pending)
  | pending, sample :: rest =>
    let pending2 := pending ++ [sample]
    if bufferSize ≤ pending2.length then
      let out := processFill [] rest
      (pending2 :: out.1, out.2)
    else processFill pending2 rest

/-- The lower bracket `index1 = Math.floor(i * ratio)` with `ratio = sourceRate / targetRate`.
The `input` argument is carried only so the bracketing pair reads uniformly. -/
def interpIndex1 (input : List ℚ) (sourceRate targetRate : ℕ) (i : ℕ) : ℕ :=
  (⌊(i : ℚ) * ((sourceRate : ℚ) / (targetRate : ℚ))⌋).toNat

/-- The upper bracket `index2 = Math.min(index1 + 1, input.length - 1)`,
index, clamped to the last valid source index. -/
def interpIndex2 (input : List ℚ) (sourceRate targetRate : ℕ) (i : ℕ) : ℕ :=
  min (interpIndex1 input sourceRate targetRate i + 1) (input.length - 1)

/-- The resampler `PCMProcessor.downsample`: linear-interpolation downsampling with output
length `Math.ceil(input.length / ratio)`. -/
def downsample (input : List ℚ) (sourceRate targetRate : ℕ) : List ℚ :=
  if sourceRate = targetRate then input
  else
    let ratio : ℚ := (sourceRate : ℚ) / (targetRate : ℚ)
    let newLength : ℕ := (⌈(input.length : ℚ) / ratio⌉).toNat
    (List.range newLength).map (fun (i : ℕ) =>
      let originalIndex : ℚ := (i : ℚ) * ratio
      let index1 := interpIndex1 input sourceRate targetRate i
      let index2 := interpIndex2 input sourceRate targetRate i
      let fraction : ℚ := originalIndex - (index1 : ℚ)
      let value1 := input.getD index1 0
      let value2 := input.getD index2 0
      value1 + (value2 - value1) * fraction)

end PCMProcessor

/-! ### `utils/audioUtils.ts` -/

/-- JavaScript `Math.round`: round half toward positive infinity. -/
def jsRound (x : ℚ) : ℤ := ⌊x + 1 / 2⌋

/-- The resampler `downsampleTo16k`: block-averaging resampler to 16 kHz with output length
`Math.round(input.length / ratio)`; each output sample averages the source
window `[Math.floor(i * ratio), Math.floor((i + 1) * ratio))` clipped to the
input, and is 0 when that window is empty. -/
def downsampleTo16k (input : List ℚ) (sourceSampleRate : ℕ) : List ℚ :=
  if sourceSampleRate = 16000 then input
  else
    let ratio : ℚ := (sourceSampleRate : ℚ) / 16000
    let newLength : ℕ := (jsRound ((input.length : ℚ) / ratio)).toNat
    (List.range newLength).map (fun (i : ℕ) =>
      let startOffset : ℕ := (⌊(i : ℚ) * ratio⌋).toNat
      let endOffset : ℕ := (⌊((i : ℚ) + 1) * ratio⌋).toNat
      let stop := min endOffset input.length
      let count := stop - startOffset
      let sum : ℚ := ((List.range' startOffset count).map (fun j => input.getD j 0)).sum
      if 0 < count then sum / (count : ℚ) else 0)

/-- Truncation toward zero, as JavaScript's number-to-int16 conversion
(`DataView.setInt16`) applies to a finite value. -/
def jsTrunc (x : ℚ) : ℤ :=
  if 0 ≤ x then ⌊x⌋ else ⌈x⌉

/-- The 16-bit value `float32ToInt16PCM` stores for one sample:
`s = Math.max(-1, Math.min(1, f)); val = s < 0 ? s * 0x8000 : s * 0x7FFF`. -/
def int16OfSample (f : ℚ) : ℤ :=
  let s := max (-1 : ℚ) (min 1 f)
  jsTrunc (if s < 0 then s * 0x8000 else s * 0x7FFF)

/-- The encoder `float32ToInt16PCM` as its byte buffer: per input sample, the 16-bit
two's-complement pattern written little-endian (low byte first,
`view.setInt16(i * 2, val, true)`). -/
def float32ToInt16PCM (input : List ℚ) : List ℕ :=
  (input.map (fun f =>
    let u := ((int16OfSample f) % 65536).toNat
    [u % 256, u / 256])).flatten

/-- Reading back a little-endian int16 from two bytes (two's complement). -/
def decodeInt16LE (lo hi : ℕ) : ℤ :=
  let u := lo + 256 * hi
  if 32768 ≤ u then (u : ℤ) - 65536 else (u : ℤ)

/-! ### Connection supervisor (modelled from the spec)

The repository's `LiveService` revision with reconnection support is not
among the source files (`src/services/liveService.ts` has no reconnect path;
only its caller's `onReconnecting` hook appears), so the supervisor is
modelled from the spec's §4.6. -/

/-- Modelled from the spec: the supervisor's observable states, with
`reconnecting` distinct from a first-time `connecting` and a terminal closed
state after reconnect attempts are exhausted. -/
inductive SupStatus
  | disconnected
  | connecting
  | connected
  | reconnecting
  | closedTerminal
  | errored
deriving DecidableEq

/-- Modelled from the spec: the supervisor's state — observable status, the
count of reconnect attempts used, and the session-resumption token from a
prior session when the upstream protocol supplied one. -/
structure SupervisorState where
  status : SupStatus
  attempt : Nat
  resumptionToken : Option String
deriving DecidableEq

/-- Modelled from the spec: the reconnect attempt bound (e.g. 5). -/
def maxReconnectAttempts : Nat := 5

/-- Modelled from the spec: the backoff base (e.g. 1 s). -/
def backoffBase : ℚ := 1

/-- Modelled from the spec: the backoff cap (e.g. 32 s). -/
def backoffCap : ℚ := 32

/-- Modelled from the spec: attempt `n`'s exponential-backoff delay
`min(base * 2^attempt, cap)`. -/
def backoffDelay (attempt : Nat) : ℚ :=
  min (backoffBase * 2 ^ attempt) backoffCap

/-- Modelled from the spec: a scheduled retry — its backoff delay and the
resumption token the retry connects with (reused when available). -/
structure RetryAction where
  delay : ℚ
  resumeWith : Option String
deriving DecidableEq

/-- Modelled from the spec: handling of an unexpected (not caller-initiated)
close.  While attempts remain, schedule a retry after the backoff delay,
signal `reconnecting` and reuse the resumption token; once attempts are
exhausted, surface the terminal closed state and schedule nothing. -/
def onUnexpectedClose (s : SupervisorState) : SupervisorState × Option RetryAction :=
  if s.attempt < maxReconnectAttempts then
    ({ s with status := SupStatus.reconnecting, attempt := s.attempt + 1 },
     some { delay := backoffDelay s.attempt, resumeWith := s.resumptionToken })
  else
    ({ s with status := SupStatus.closedTerminal }, none)

/-- Modelled from the spec: `k` consecutive unexpected closes, collecting the
scheduled retries. -/
def runCloses : SupervisorState → Nat → SupervisorState × List RetryAction
  | s, 0 => (s, [])
  | s, k + 1 =>
    let step := onUnexpectedClose s
    let rest := runCloses step.1 k
    (rest.1, step.2.toList ++ rest.2)

/-! ### Concrete fixtures used by claim theorems, counterexamples and witnesses -/

/-- State after `onDelta("Hello", user, false)` from a fresh session. -/
def c1Step1 : ReconState := onTranscript initState "Hello" true false

/-- State after the further `onDelta("world", user, true)`. -/
def c1Step2 : ReconState := onTranscript c1Step1 "world" true true

/-- State after the further `onDelta("Hi", ai, false)`. -/
def c1Final : ReconState := onTranscript c1Step2 "Hi" false false

/-- History `[{user, "I go"}, {ai, "I see"}]` with the AI buffer holding
`"That's right."` when a correction event arrives. -/
def c2State : ReconState :=
  { initState with
      history := [⟨Role.user, "I go"⟩, ⟨Role.ai, "I see"⟩]
      aiBuf := "That\x27s right."
      lastRole := some Role.ai
      recentTurns := [⟨Role.ai, "That\x27s right.", -1⟩]
      turnIdCounter := 2 }

/-- The correction event as delivered, before attachment. -/
def c2Corr : Correction :=
  { original := "I go", corrected := "I went", explanation := "past tense"
    timestamp := 0, aiContext := "", turnIndex := -1 }

/-- A state whose user buffer is empty but where the AI role was streaming
with a non-empty buffer. -/
def c6State : ReconState :=
  { initState with
      aiBuf := "Hi"
      lastRole := some Role.ai
      recentTurns := [⟨Role.ai, "Hi", -1⟩] }

/-- A state whose AI turn was already finalized into history by the
role-switch path while the buffer still holds the same text. -/
def c7State : ReconState :=
  { initState with
      history := [⟨Role.user, "I go"⟩, ⟨Role.ai, "Hi."⟩]
      aiBuf := "Hi."
      lastRole := some Role.ai }

/-- A correction event arriving in `c7State`. -/
def c7Corr : Correction :=
  { original := "I go", corrected := "I went", explanation := "tense"
    timestamp := 1, aiContext := "", turnIndex := -1 }

/-- Three playback buffers: two arriving back-to-back, a third after a gap. -/
def c3Events : List EnqueueEvent := [⟨0, 1⟩, ⟨0, 1⟩, ⟨3, 2⟩]

/-- A short sample chunk for the resampler length witness. -/
def c5Input : List ℚ := [1, 2, 3]

/-- A sample chunk for the interpolation bounds witness. -/
def c9Input : List ℚ := [1, 2, 3, 4]

end Velora

namespace Velora

/-! ## Claim theorems -/

/-- Claim C1 (counterexample): the sequence
`onDelta("Hello", user, false), onDelta("world", user, true),
onDelta("Hi", ai, false)` commits a single user entry whose text is
`"Helloworld"` — the deltas are concatenated with no separating space — so no
committed entry reads `"Hello world"` as the claim states. -/
theorem role_switch_commit_text_cex :
    c1Final.history.map HistEntry.text = ["Helloworld"] ∧
      ("Helloworld" : String) ≠ "Hello world" := by
  decide

/-- Claim C1 (amended): the same event sequence commits exactly one user
entry, with text `"Helloworld"` (the deltas concatenated verbatim), nothing
is committed while only user deltas have arrived, and in the recent-turns
display the committed user entry appears before the AI live entry. -/
theorem role_switch_commit :
    c1Final.history = [⟨Role.user, "Helloworld"⟩] ∧
      c1Step2.history = [] ∧
      c1Final.recentTurns =
        [⟨Role.user, "Helloworld", 0⟩, ⟨Role.ai, "Hi", -1⟩] := by
  decide

/-- Claim C2: with history `[{user, "I go"}, {ai, "I see"}]` and the AI buffer
holding `"That's right."`, the attached correction's `turnIndex` is `0` (the
most recent user entry, found scanning backward) and its `aiContext` is
`"That's right."`. -/
theorem correction_turnIndex_aiContext :
    ((onCorrection c2State c2Corr).corrections.map (fun c => (c.turnIndex, c.aiContext)))
      = [((0 : Int), "That\x27s right.")] := by
  decide

/-- Claim C6 (counterexample): feeding `onDelta("", user, true)` in a state
with an empty user buffer still commits the streaming AI buffer through the
role-switch path, altering both the history and the recent-turns display. -/
theorem empty_final_cex :
    c6State.userBuf = "" ∧
      (onTranscript c6State "" true true).history ≠ c6State.history ∧
      (onTranscript c6State "" true true).recentTurns ≠ c6State.recentTurns := by
  decide

/-- Claim C6 (amended): feeding `onDelta("", user, true)` with an empty user
buffer leaves the history and the recent-turns display unchanged, provided
the event does not also trigger a role switch away from an AI turn with a
non-empty buffer (the previous role is absent or `user`, or the AI buffer is
blank after trim). -/
theorem empty_final_no_commit (s : ReconState) (h1 : s.userBuf = "")
    (h2 : s.lastRole = none ∨ s.lastRole = some Role.user ∨ jsTrim s.aiBuf = "") :
    (onTranscript s "" true true).history = s.history ∧
      (onTranscript s "" true true).recentTurns = s.recentTurns := by
  rcases h2 with h2 | h2 | h2
  · simp [onTranscript, h2]
  · simp [onTranscript, h2]
  · cases hl : s.lastRole with
    | none => simp [onTranscript, hl]
    | some r =>
      cases r with
      | user => simp [onTranscript, hl]
      | ai => simp [onTranscript, finalizePrev, hl, h2]

/-- Witness for C6's amended theorem at the fresh session state. -/
theorem empty_final_no_commit_witness :
    (onTranscript initState "" true true).history = initState.history ∧
      (onTranscript initState "" true true).recentTurns = initState.recentTurns :=
  empty_final_no_commit initState (by decide) (Or.inl (by decide))

/-- Claim C7: on a correction with a non-empty AI buffer, the buffer is
appended to history as an AI entry unless the last history entry already has
role `ai` and exactly that text, in which case the history is unchanged. -/
theorem correction_finalize_idempotent (s : ReconState) (c : Correction)
    (h : jsTrim s.aiBuf ≠ "") :
    (onCorrection s c).history =
      if alreadyFinalizedAI s then s.history else s.history ++ [⟨Role.ai, s.aiBuf⟩] := by
  have hb : (jsTrim s.aiBuf != "") = true := bne_iff_ne.mpr h
  simp [onCorrection, hb]

/-- Witness for C7 at a state whose AI turn is already the last history
entry: no duplicate commit happens. -/
theorem correction_finalize_idempotent_witness :
    (onCorrection c7State c7Corr).history =
      if alreadyFinalizedAI c7State then c7State.history
      else c7State.history ++ [⟨Role.ai, c7State.aiBuf⟩] :=
  correction_finalize_idempotent c7State c7Corr (by decide)

/-- The scheduler assigns one start time per enqueued buffer. -/
theorem scheduleAll_length (nst : ℚ) (evs : List EnqueueEvent) :
    (scheduleAll nst evs).length = evs.length := by
  induction evs generalizing nst with
  | nil => rfl
  | cons e es ih => simp [scheduleAll, ih]

/-- Every start time the scheduler assigns is at least the `nextStartTime`
it began with, as long as buffer durations are nonnegative. -/
theorem scheduleAll_ge (nst : ℚ) (evs : List EnqueueEvent)
    (hdur : ∀ e ∈ evs, 0 ≤ e.duration) :
    ∀ x ∈ scheduleAll nst evs, nst ≤ x := by
  induction evs generalizing nst with
  | nil => intro x hx; simp [scheduleAll] at hx
  | cons e es ih =>
    intro x hx
    simp only [scheduleAll, onAudioDataStep, List.mem_cons] at hx
    rcases hx with rfl | hx
    · exact le_max_left _ _
    · have h0 : 0 ≤ e.duration := hdur e (List.mem_cons_self e es)
      have h1 : nst ≤ max nst e.now + e.duration := by
        have := le_max_left nst e.now
        linarith
      exact h1.trans
        (ih (max nst e.now + e.duration)
          (fun e' he' => hdur e' (List.mem_cons_of_mem _ he')) x hx)

/-- Claim C3: with `start = max(nextStartTime, now)` and
`nextStartTime = start + duration` on each enqueue, any buffer scheduled
later starts no earlier than an earlier buffer's start plus its duration —
playback is FIFO and never overlaps, whatever the arrival clocks. -/
theorem playback_non_overlap (nst0 : ℚ) (evs : List EnqueueEvent)
    (hdur : ∀ e ∈ evs, 0 ≤ e.duration) (i j : ℕ) (hij : i < j)
    (hj : j < evs.length) :
    (scheduleAll nst0 evs).getD i 0 + (evs.getD i ⟨0, 0⟩).duration
      ≤ (scheduleAll nst0 evs).getD j 0 := by
  induction evs generalizing nst0 i j with
  | nil => simp at hj
  | cons e es ih =>
    cases i with
    | zero =>
      cases j with
      | zero => omega
      | succ j =>
        have hj' : j < es.length := by simpa using hj
        simp only [scheduleAll, onAudioDataStep, List.getD_cons_zero, List.getD_cons_succ]
        have hlen : j < (scheduleAll (max nst0 e.now + e.duration) es).length := by
          rw [scheduleAll_length]; exact hj'
        rw [List.getD_eq_getElem _ _ hlen]
        exact scheduleAll_ge (max nst0 e.now + e.duration) es
          (fun e' he' => hdur e' (List.mem_cons_of_mem _ he')) _
          (List.getElem_mem hlen)
    | succ i =>
      cases j with
      | zero => omega
      | succ j =>
        simp only [scheduleAll, onAudioDataStep, List.getD_cons_succ]
        exact ih (max nst0 e.now + e.duration)
          (fun e' he' => hdur e' (List.mem_cons_of_mem _ he'))
          i j (Nat.lt_of_succ_lt_succ hij) (Nat.lt_of_succ_lt_succ hj)

/-- Witness for C3 on three concrete buffers: the third buffer starts no
earlier than the first buffer's start plus its duration. -/
theorem playback_non_overlap_witness :
    (scheduleAll 0 c3Events).getD 0 0 + (c3Events.getD 0 ⟨0, 0⟩).duration
      ≤ (scheduleAll 0 c3Events).getD 2 0 :=
  playback_non_overlap 0 c3Events (by decide) 0 2 (by decide) (by decide)

/-- The fill-loop invariant behind C4: starting from a partial buffer, the
emitted packets are each exactly `bufferSize` long — as many as fit — and
the retained remainder is the total modulo the buffer size. -/
theorem processFill_spec (input : List ℚ) :
    ∀ pending : List ℚ, pending.length < PCMProcessor.bufferSize →
      ((PCMProcessor.processFill pending input).1.map List.length
          = List.replicate ((pending.length + input.length) / PCMProcessor.bufferSize)
              PCMProcessor.bufferSize)
        ∧ (PCMProcessor.processFill pending input).2.length
            = (pending.length + input.length) % PCMProcessor.bufferSize := by
  have hB : PCMProcessor.bufferSize = 2048 := rfl
  induction input with
  | nil =>
    intro pending hp
    constructor
    · simp [PCMProcessor.processFill, Nat.div_eq_of_lt hp]
    · simp [PCMProcessor.processFill, Nat.mod_eq_of_lt hp]
  | cons s rest ih =>
    intro pending hp
    have hp2048 : pending.length < 2048 := by rw [← hB]; exact hp
    by_cases hfull : PCMProcessor.bufferSize ≤ (pending ++ [s]).length
    · have hplen : pending.length + 1 = 2048 := by
        have := hfull
        simp only [List.length_append, List.length_singleton, hB] at this
        omega
      have hstep : PCMProcessor.processFill pending (s :: rest)
          = ((pending ++ [s]) :: (PCMProcessor.processFill [] rest).1,
             (PCMProcessor.processFill [] rest).2) := by
        simp only [PCMProcessor.processFill, if_pos hfull]
      obtain ⟨h1, h2⟩ := ih [] (by rw [hB]; simp)
      simp only [List.length_nil, Nat.zero_add] at h1 h2
      have key : (pending.length + (s :: rest).length) / PCMProcessor.bufferSize
          = rest.length / PCMProcessor.bufferSize + 1 := by
        simp only [List.length_cons, hB]
        omega
      have keymod : (pending.length + (s :: rest).length) % PCMProcessor.bufferSize
          = rest.length % PCMProcessor.bufferSize := by
        simp only [List.length_cons, hB]
        omega
      have hpk : (pending ++ [s]).length = PCMProcessor.bufferSize := by
        simp only [List.length_append, List.length_singleton, hB]
        omega
      constructor
      · rw [hstep, key, List.replicate_succ]
        simp only [List.map_cons, hpk, h1]
      · rw [hstep, keymod]
        exact h2
    · have hp2 : (pending ++ [s]).length < PCMProcessor.bufferSize := Nat.lt_of_not_le hfull
      have hstep : PCMProcessor.processFill pending (s :: rest)
          = PCMProcessor.processFill (pending ++ [s]) rest := by
        simp only [PCMProcessor.processFill, if_neg hfull]
      obtain ⟨h1, h2⟩ := ih (pending ++ [s]) hp2
      have harith : pending.length + (s :: rest).length
          = (pending ++ [s]).length + rest.length := by
        simp only [List.length_append, List.length_singleton, List.length_cons,
          List.length_nil]
        omega
      constructor
      · rw [hstep, harith]; exact h1
      · rw [hstep, harith]; exact h2

/-- Claim C4: feeding any sample stream into the capture buffer, every
emitted packet holds exactly `bufferSize` samples, the total delivered is the
largest multiple of `bufferSize` not exceeding the input length, and the
retained (never emitted, dropped at stream end) remainder is the input
length modulo `bufferSize`. -/
theorem framing_completeness (input : List ℚ) :
    ((PCMProcessor.processFill [] input).1.map List.length
        = List.replicate (input.length / PCMProcessor.bufferSize) PCMProcessor.bufferSize)
      ∧ ((PCMProcessor.processFill [] input).1.map List.length).sum
          = PCMProcessor.bufferSize * (input.length / PCMProcessor.bufferSize)
      ∧ (PCMProcessor.processFill [] input).2.length
          = input.length % PCMProcessor.bufferSize := by
  obtain ⟨h1, h2⟩ := processFill_spec input [] (by simp [PCMProcessor.bufferSize])
  simp only [List.length_nil, Nat.zero_add] at h1 h2
  refine ⟨h1, ?_, h2⟩
  rw [h1]
  simp [List.sum_replicate, smul_eq_mul, Nat.mul_comm]

/-- Claim C5: for `Sr > St > 0` the interpolation downsampler emits exactly
`ceil(input.length * St / Sr)` samples, and (for `St = 16000`) the
block-averaging `downsampleTo16k` emits exactly
`round(input.length / (Sr / St))` samples. -/
theorem resample_length_law (input : List ℚ) (Sr St : ℕ) (h1 : St < Sr) (h2 : 0 < St) :
    ((PCMProcessor.downsample input Sr St).length : ℤ)
        = ⌈((input.length : ℚ) * (St : ℚ)) / (Sr : ℚ)⌉
      ∧ (St = 16000 →
        ((downsampleTo16k input Sr).length : ℤ)
            = jsRound ((input.length : ℚ) / ((Sr : ℚ) / (St : ℚ)))) := by
  have hne : Sr ≠ St := Nat.ne_of_gt h1
  constructor
  · simp only [PCMProcessor.downsample, if_neg hne, List.length_map, List.length_range]
    rw [div_div_eq_mul_div]
    apply Int.toNat_of_nonneg
    apply Int.ceil_nonneg
    positivity
  · intro h16
    subst h16
    have hne2 : Sr ≠ 16000 := hne
    simp only [downsampleTo16k, if_neg hne2, List.length_map, List.length_range]
    have hcast : ((16000 : ℕ) : ℚ) = (16000 : ℚ) := by norm_num
    rw [hcast]
    apply Int.toNat_of_nonneg
    unfold jsRound
    apply Int.floor_nonneg.mpr
    have h0 : (0 : ℚ) ≤ (input.length : ℚ) / ((Sr : ℚ) / 16000) := by positivity
    linarith

/-- Witness for C5 on a 3-sample chunk at 48 kHz → 16 kHz. -/
theorem resample_length_law_witness :
    ((PCMProcessor.downsample c5Input 48000 16000).length : ℤ)
        = ⌈((c5Input.length : ℚ) * ((16000 : ℕ) : ℚ)) / ((48000 : ℕ) : ℚ)⌉
      ∧ ((16000 : ℕ) = 16000 →
        ((downsampleTo16k c5Input 48000).length : ℤ)
            = jsRound ((c5Input.length : ℚ) / (((48000 : ℕ) : ℚ) / ((16000 : ℕ) : ℚ)))) :=
  resample_length_law c5Input 48000 16000 (by decide) (by decide)

/-- Claim C9: for a non-empty input and `Sr > St > 0`, every source index the
interpolation downsampler reads is in bounds — `index1` is below the input
length, and the upper bracket `index2`, clamped to `input.length - 1`, stays
a valid index even for the last output sample. -/
theorem downsample_index_bounds (input : List ℚ) (Sr St i : ℕ)
    (hne : input ≠ []) (h1 : St < Sr) (h2 : 0 < St)
    (hi : i < (PCMProcessor.downsample input Sr St).length) :
    PCMProcessor.interpIndex1 input Sr St i < input.length
      ∧ PCMProcessor.interpIndex2 input Sr St i < input.length
      ∧ PCMProcessor.interpIndex2 input Sr St i ≤ input.length - 1 := by
  have hSr : 0 < Sr := h2.trans h1
  have hSrQ : (0 : ℚ) < (Sr : ℚ) := by exact_mod_cast hSr
  have hStQ : (0 : ℚ) < (St : ℚ) := by exact_mod_cast h2
  have hrpos : (0 : ℚ) < (Sr : ℚ) / (St : ℚ) := div_pos hSrQ hStQ
  have hSrne : Sr ≠ St := Nat.ne_of_gt h1
  have hlen : (PCMProcessor.downsample input Sr St).length
      = (⌈(input.length : ℚ) / ((Sr : ℚ) / (St : ℚ))⌉).toNat := by
    simp only [PCMProcessor.downsample, if_neg hSrne, List.length_map, List.length_range]
  rw [hlen] at hi
  have hiz : (i : ℤ) < ⌈(input.length : ℚ) / ((Sr : ℚ) / (St : ℚ))⌉ := by omega
  have hiq : ((i : ℤ) : ℚ) ≤ (⌈(input.length : ℚ) / ((Sr : ℚ) / (St : ℚ))⌉ : ℚ) - 1 := by
    have h := Int.lt_iff_add_one_le.mp hiz
    have : ((i : ℤ) : ℚ) + 1 ≤ (⌈(input.length : ℚ) / ((Sr : ℚ) / (St : ℚ))⌉ : ℚ) := by
      exact_mod_cast h
    linarith
  have hceil : (⌈(input.length : ℚ) / ((Sr : ℚ) / (St : ℚ))⌉ : ℚ)
      < (input.length : ℚ) / ((Sr : ℚ) / (St : ℚ)) + 1 := Int.ceil_lt_add_one _
  have hix : (i : ℚ) < (input.length : ℚ) / ((Sr : ℚ) / (St : ℚ)) := by
    push_cast at hiq
    linarith
  have hmul : (i : ℚ) * ((Sr : ℚ) / (St : ℚ)) < (input.length : ℚ) :=
    (lt_div_iff₀ hrpos).mp hix
  have hfl : ⌊(i : ℚ) * ((Sr : ℚ) / (St : ℚ))⌋ < (input.length : ℤ) := by
    have hle := Int.floor_le ((i : ℚ) * ((Sr : ℚ) / (St : ℚ)))
    have hq : (⌊(i : ℚ) * ((Sr : ℚ) / (St : ℚ))⌋ : ℚ) < (input.length : ℚ) :=
      lt_of_le_of_lt hle hmul
    exact_mod_cast hq
  have hlen1 : 0 < input.length := List.length_pos.mpr hne
  have hidx1 : PCMProcessor.interpIndex1 input Sr St i < input.length := by
    unfold PCMProcessor.interpIndex1
    omega
  refine ⟨hidx1, ?_, ?_⟩
  · unfold PCMProcessor.interpIndex2
    omega
  · unfold PCMProcessor.interpIndex2
    omega

/-- Witness for C9 on a 4-sample chunk halved in rate, at output index 0. -/
theorem downsample_index_bounds_witness :
    PCMProcessor.interpIndex1 c9Input 2 1 0 < c9Input.length
      ∧ PCMProcessor.interpIndex2 c9Input 2 1 0 < c9Input.length
      ∧ PCMProcessor.interpIndex2 c9Input 2 1 0 ≤ c9Input.length - 1 :=
  downsample_index_bounds c9Input 2 1 0 (by decide) (by decide) (by decide)
    (by simp only [PCMProcessor.downsample, c9Input, List.length_map, List.length_range]
        norm_num)

/-- The stored 16-bit value of every sample lies in `[-32768, 32767]`:
clamping to `[-1, 1]` then scaling negatives by `0x8000` and non-negatives by
`0x7FFF` never leaves the int16 range. -/
theorem int16OfSample_bounds (f : ℚ) :
    -32768 ≤ int16OfSample f ∧ int16OfSample f ≤ 32767 := by
  simp only [int16OfSample, jsTrunc]
  have hs1 : (-1 : ℚ) ≤ max (-1 : ℚ) (min 1 f) := le_max_left _ _
  have hs2 : max (-1 : ℚ) (min 1 f) ≤ 1 := max_le (by norm_num) (min_le_left _ _)
  by_cases hneg : max (-1 : ℚ) (min 1 f) < 0
  · rw [if_pos hneg]
    have hv : max (-1 : ℚ) (min 1 f) * 0x8000 < 0 := mul_neg_of_neg_of_pos hneg (by norm_num)
    rw [if_neg (not_le.mpr hv)]
    constructor
    · have hlb : (-32768 : ℚ) ≤ max (-1 : ℚ) (min 1 f) * 0x8000 := by nlinarith
      have := Int.ceil_le_ceil (α := ℚ) hlb
      simpa using this
    · have := Int.ceil_le.mpr (le_of_lt hv)
      have h0 : ⌈max (-1 : ℚ) (min 1 f) * 0x8000⌉ ≤ (0 : ℤ) := by simpa using this
      omega
  · push_neg at hneg
    rw [if_neg (not_lt.mpr hneg)]
    have hv0 : (0 : ℚ) ≤ max (-1 : ℚ) (min 1 f) * 0x7FFF := mul_nonneg hneg (by norm_num)
    rw [if_pos hv0]
    constructor
    · have h0 : (0 : ℤ) ≤ ⌊max (-1 : ℚ) (min 1 f) * 0x7FFF⌋ := Int.floor_nonneg.mpr hv0
      omega
    · have hub : max (-1 : ℚ) (min 1 f) * 0x7FFF ≤ (32767 : ℚ) := by nlinarith
      have := Int.floor_le_floor (α := ℚ) hub
      simpa using this

/-- Unfolding `float32ToInt16PCM` one sample at a time: the two bytes of the
sample's two's-complement pattern, low byte first. -/
theorem float32ToInt16PCM_cons (f : ℚ) (rest : List ℚ) :
    float32ToInt16PCM (f :: rest)
      = (((int16OfSample f) % 65536).toNat % 256)
        :: (((int16OfSample f) % 65536).toNat / 256)
        :: float32ToInt16PCM rest := by
  simp [float32ToInt16PCM]

/-- Decoding the two's-complement byte pair recovers any value in the int16
range. -/
theorem decodeInt16LE_encode (v : ℤ) (h1 : -32768 ≤ v) (h2 : v ≤ 32767) :
    decodeInt16LE ((v % 65536).toNat % 256) ((v % 65536).toNat / 256) = v := by
  simp only [decodeInt16LE]
  split <;> omega

/-- The byte positions of each sample: at offset `2 * i` the buffer holds the
little-endian byte pair of sample `i`. -/
theorem float32ToInt16PCM_decode (input : List ℚ) :
    ∀ i, i < input.length →
      decodeInt16LE ((float32ToInt16PCM input).getD (2 * i) 0)
          ((float32ToInt16PCM input).getD (2 * i + 1) 0)
        = int16OfSample (input.getD i 0) := by
  induction input with
  | nil => intro i hi; simp at hi
  | cons f rest ih =>
    intro i hi
    rw [float32ToInt16PCM_cons]
    cases i with
    | zero =>
      simp only [Nat.mul_zero, Nat.zero_add, List.getD_cons_zero, List.getD_cons_succ]
      obtain ⟨hb1, hb2⟩ := int16OfSample_bounds f
      exact decodeInt16LE_encode (int16OfSample f) hb1 hb2
    | succ i =>
      have e1 : 2 * (i + 1) = 2 * i + 1 + 1 := by ring
      rw [e1]
      simp only [List.getD_cons_succ]
      exact ih i (Nat.lt_of_succ_lt_succ hi)

/-- Claim C10: `float32ToInt16PCM` emits exactly `2 * input.length` bytes;
each sample is clamped to `[-1, 1]`, scaled by `32768` when negative and by
`32767` otherwise, so every stored 16-bit value lies in `[-32768, 32767]`;
and the two bytes at offset `2 * i` decode, little-endian, back to sample
`i`'s value. -/
theorem float32ToInt16PCM_spec (input : List ℚ) :
    (float32ToInt16PCM input).length = 2 * input.length
      ∧ (∀ f ∈ input, -32768 ≤ int16OfSample f ∧ int16OfSample f ≤ 32767)
      ∧ (∀ i, i < input.length →
          decodeInt16LE ((float32ToInt16PCM input).getD (2 * i) 0)
              ((float32ToInt16PCM input).getD (2 * i + 1) 0)
            = int16OfSample (input.getD i 0)) := by
  refine ⟨?_, fun f _ => int16OfSample_bounds f, float32ToInt16PCM_decode input⟩
  induction input with
  | nil => rfl
  | cons f rest ih =>
    rw [float32ToInt16PCM_cons]
    simp only [List.length_cons, ih]
    omega

/-- The supervisor invariant behind C8, generalized over the starting
attempt count: each retry's delay follows the backoff schedule from the
current attempt, every retry reuses the stored resumption token, and once the
remaining budget is exceeded the status is the terminal closed state. -/
theorem runCloses_spec (k : ℕ) :
    ∀ s : SupervisorState, s.attempt ≤ maxReconnectAttempts →
      ((runCloses s k).2.map RetryAction.delay
          = (List.range' s.attempt (min k (maxReconnectAttempts - s.attempt))).map backoffDelay)
        ∧ (∀ a ∈ (runCloses s k).2, a.resumeWith = s.resumptionToken)
        ∧ (maxReconnectAttempts - s.attempt < k →
            (runCloses s k).1.status = SupStatus.closedTerminal) := by
  induction k with
  | zero =>
    intro s hs
    refine ⟨by simp [runCloses], by simp [runCloses], fun h => absurd h (by omega)⟩
  | succ k ih =>
    intro s hs
    by_cases ha : s.attempt < maxReconnectAttempts
    · have hstep : runCloses s (k + 1)
          = ((runCloses ⟨SupStatus.reconnecting, s.attempt + 1, s.resumptionToken⟩ k).1,
             ⟨backoffDelay s.attempt, s.resumptionToken⟩
               :: (runCloses ⟨SupStatus.reconnecting, s.attempt + 1, s.resumptionToken⟩ k).2) := by
        simp only [runCloses, onUnexpectedClose, if_pos ha]
        rfl
      obtain ⟨ih1, ih2, ih3⟩ :=
        ih ⟨SupStatus.reconnecting, s.attempt + 1, s.resumptionToken⟩ (by simpa using ha)
      refine ⟨?_, ?_, ?_⟩
      · rw [hstep]
        simp only [List.map_cons]
        rw [ih1]
        have hmin : min (k + 1) (maxReconnectAttempts - s.attempt)
            = min k (maxReconnectAttempts - (s.attempt + 1)) + 1 := by
          simp only [maxReconnectAttempts] at ha ⊢
          omega
        rw [hmin, List.range'_succ, List.map_cons]
      · intro a hamem
        rw [hstep] at hamem
        rcases List.mem_cons.mp hamem with rfl | hmem
        · rfl
        · exact ih2 a hmem
      · intro hk
        rw [hstep]
        apply ih3
        simp only [maxReconnectAttempts] at ha hk ⊢
        omega
    · have hstep : runCloses s (k + 1)
          = ((runCloses ⟨SupStatus.closedTerminal, s.attempt, s.resumptionToken⟩ k).1,
             (runCloses ⟨SupStatus.closedTerminal, s.attempt, s.resumptionToken⟩ k).2) := by
        simp only [runCloses, onUnexpectedClose, if_neg ha]
        rfl
      obtain ⟨ih1, ih2, ih3⟩ :=
        ih ⟨SupStatus.closedTerminal, s.attempt, s.resumptionToken⟩ (by simpa using hs)
      have hz : maxReconnectAttempts - s.attempt = 0 := by omega
      refine ⟨?_, ?_, ?_⟩
      · rw [hstep, ih1]
        simp [hz]
      · intro a hamem
        rw [hstep] at hamem
        exact ih2 a hamem
      · intro hk
        rw [hstep]
        cases k with
        | zero => rfl
        | succ k2 =>
          apply ih3
          simp only [maxReconnectAttempts] at hz ⊢
          omega

/-- Claim C8 (modelled from the spec, the reconnect-bearing `LiveService`
revision being outside the staged sources): from a connected session with a
stored resumption token, attempt `n`'s retry delay is `min(base * 2^n, cap)`,
every retry reuses the token, at most `maxReconnectAttempts` retries are
scheduled, exceeding the budget surfaces the terminal closed status, and the
`reconnecting` state is distinct from a first-time `connecting`. -/
theorem reconnect_backoff_bound (tok : Option String) (k : ℕ) :
    ((runCloses ⟨SupStatus.connected, 0, tok⟩ k).2.map RetryAction.delay
        = (List.range' 0 (min k maxReconnectAttempts)).map backoffDelay)
      ∧ (∀ a ∈ (runCloses ⟨SupStatus.connected, 0, tok⟩ k).2, a.resumeWith = tok)
      ∧ (runCloses ⟨SupStatus.connected, 0, tok⟩ k).2.length ≤ maxReconnectAttempts
      ∧ (maxReconnectAttempts < k →
          (runCloses ⟨SupStatus.connected, 0, tok⟩ k).1.status = SupStatus.closedTerminal)
      ∧ SupStatus.reconnecting ≠ SupStatus.connecting
      ∧ ∀ n, backoffDelay n = min (backoffBase * 2 ^ n) backoffCap := by
  obtain ⟨h1, h2, h3⟩ :=
    runCloses_spec k ⟨SupStatus.connected, 0, tok⟩ (by simp [maxReconnectAttempts])
  have h1z : (runCloses ⟨SupStatus.connected, 0, tok⟩ k).2.map RetryAction.delay
      = (List.range' 0 (min k maxReconnectAttempts)).map backoffDelay := by
    simpa using h1
  refine ⟨h1z, h2, ?_, by simpa using h3, by decide, fun n => rfl⟩
  have hlen := congrArg List.length h1z
  simp only [List.length_map, List.length_range'] at hlen
  simp only [maxReconnectAttempts] at hlen ⊢
  omega

end Velora
